import Mathlib

/-!
# Verification of fyne `internal/async`: unbounded channel and lock-free queue

This development embeds the two concurrency primitives generated by
`internal/async/gen.go` (instantiated for `fyne.CanvasObject`):

* the Michael–Scott lock-free FIFO queue (`CanvasObjectQueue` with `In`,
  `Out`, `Len` from the `queueImpl`/`queueUnsafeStructImpl` templates), and
* the unbounded channel (`UnboundedCanvasObjectChan` with its `processing`
  dispatch goroutine and `closed` drain phase from the `chanImpl` template).

The queue is embedded as an explicit heap of nodes (addresses are indices
into a list that only grows — this models a garbage-collected heap: retired
nodes stay at their address, matching the Go code where `sync.Pool` reuse is
an allocation optimisation with all fields overwritten on `Get`).  The claims
about the queue are single-threaded, so atomic loads read the current state
and every CAS whose read is still current succeeds; the retry loops of
`In`/`Out` are given explicit fuel so the functions are total on arbitrary
states, and on states reachable by the queue API one iteration always
suffices.

The channel is embedded as a labelled transition system over the whole
system state (the `in`/`out` Go channel buffers of capacity 16, the internal
slice `q` with its capacity, the dispatcher's program counter, and ghost
histories `sent`/`received` recording the values accepted on `In()` and
delivered from `Out()`).
-/

namespace Async

/-- The element payload.  The Go code stores `fyne.CanvasObject`, an
interface type whose zero value is `nil`; the algorithms never inspect the
payload, so it is embedded as `Option Val` with `none` for Go `nil` and
`Val` an arbitrary countable carrier. -/
abbrev Val := Nat

/-- `uint64` modulus, for the queue's length counter. -/
def U64 : Nat := 2 ^ 64

/-! ## Lock-free queue (`queueUnsafeStructImpl` + `queueImpl` templates) -/

/-- A queue node: `type itemCanvasObject struct { next unsafe.Pointer; v fyne.CanvasObject }`.
`next` is an address into the heap (`none` for the Go `nil` pointer), `v` is
the possibly-`nil` payload. -/
structure itemCanvasObject where
  next : Option Nat
  v    : Option Val
deriving Repr, DecidableEq

/-- A node as initialised by `In`: `i.next = nil; i.v = v`. -/
def newNode (v : Option Val) : itemCanvasObject := { next := none, v := v }

/-- `type CanvasObjectQueue struct { head, tail unsafe.Pointer; len uint64 }`,
together with the heap of nodes the two pointers index into.  Addresses are
indices into `heap`; allocation appends a node, and nodes are never removed
(the Go heap is garbage collected, `sync.Pool.Put` merely recycles an
allocation whose fields are reset by the next `In`). -/
structure CanvasObjectQueue where
  head : Nat
  tail : Nat
  len  : Nat
  heap : List itemCanvasObject
deriving Repr, DecidableEq

/-- `func NewCanvasObjectQueue() *CanvasObjectQueue`: one sentinel node
`&itemCanvasObject{next: nil, v: nil}` with `head` and `tail` both pointing
at it, `len` zero. -/
def NewCanvasObjectQueue : CanvasObjectQueue :=
  { head := 0, tail := 0, len := 0, heap := [newNode none] }

namespace CanvasObjectQueue

/-- Dereference an address: `loadCanvasObjectItem` on a pointer-valued
field.  `none` only on a dangling address, which never occurs in reachable
states. -/
def nodeAt (q : CanvasObjectQueue) (a : Nat) : Option itemCanvasObject :=
  q.heap[a]?

/-- The retry loop of `func (q *CanvasObjectQueue) In(v fyne.CanvasObject)`,
with the node to link already allocated at address `i`.  Single-threaded,
every atomic load reads the current field and every CAS succeeds, so:

* `last := load(&q.tail)`, `lastnext := load(&last.next)`; the consistency
  re-check `load(&q.tail) == last` is identically true;
* if `lastnext == nil`: `cas(&last.next, nil, i)` links the node,
  `cas(&q.tail, last, i)` publishes it, `atomic.AddUint64(&q.len, 1)`;
* otherwise the tail lags: `cas(&q.tail, last, lastnext)` helps, retry.

`fuel` bounds the retries so the function is total on arbitrary states;
`none` means the loop did not finish within `fuel` iterations (or `tail`
dangled), which never happens on reachable states. -/
def inLoop (i : Nat) : Nat → CanvasObjectQueue → Option CanvasObjectQueue
  | 0, _ => none
  | fuel + 1, q =>
    match q.nodeAt q.tail with
    | none => none
    | some last =>
      match last.next with
      | none =>
        some { q with
          heap := q.heap.set q.tail { last with next := some i },
          tail := i,
          len := (q.len + 1) % U64 }
      | some nxt => inLoop i fuel { q with tail := nxt }

/-- `func (q *CanvasObjectQueue) In(v fyne.CanvasObject)`: take a node from
the pool (all fields overwritten: `i.next = nil; i.v = v`, so modelled as a
fresh allocation at the first free address) and run the linking loop. -/
def In (q : CanvasObjectQueue) (v : Option Val) : Option CanvasObjectQueue :=
  inLoop q.heap.length (q.heap.length + 2)
    { q with heap := q.heap ++ [newNode v] }

/-- The retry loop of `func (q *CanvasObjectQueue) Out() fyne.CanvasObject`.
Single-threaded, so the consistency re-check `first == load(&q.head)` is
identically true and every CAS succeeds:

* `first := load(&q.head)`, `last := load(&q.tail)`,
  `firstnext := load(&first.next)`;
* if `first == last` and `firstnext == nil`: the queue is empty, return
  `nil` with the state unchanged;
* if `first == last` but `firstnext != nil`: the tail lags,
  `cas(&q.tail, last, firstnext)` helps, retry;
* otherwise: `v := firstnext.v`, `cas(&q.head, first, firstnext)` retires
  the old sentinel (`itemCanvasObjectPool.Put(first)` — the node stays at
  its address in the garbage-collected heap model),
  `atomic.AddUint64(&q.len, ^uint64(0))` adds `2^64 - 1` modulo `2^64`. -/
def outLoop : Nat → CanvasObjectQueue → Option (Option Val × CanvasObjectQueue)
  | 0, _ => none
  | fuel + 1, q =>
    match q.nodeAt q.head with
    | none => none
    | some first =>
      if q.head = q.tail then
        match first.next with
        | none => some (none, q)
        | some nxt => outLoop fuel { q with tail := nxt }
      else
        match first.next with
        | none => none
        | some nxt =>
          match q.nodeAt nxt with
          | none => none
          | some fn =>
            some (fn.v, { q with head := nxt, len := (q.len + (U64 - 1)) % U64 })

/-- `func (q *CanvasObjectQueue) Out() fyne.CanvasObject` with enough fuel
for any reachable state. -/
def Out (q : CanvasObjectQueue) : Option (Option Val × CanvasObjectQueue) :=
  outLoop (q.heap.length + 2) q

/-- `func (q *CanvasObjectQueue) Len() uint64`. -/
def Len (q : CanvasObjectQueue) : Nat := q.len

/-- Enqueue a whole list of values, left to right. -/
def enqList (q : CanvasObjectQueue) : List (Option Val) → Option CanvasObjectQueue
  | [] => some q
  | v :: vs => match q.In v with
    | none => none
    | some q' => enqList q' vs

/-- Dequeue `n` times, collecting the returned values in order. -/
def deqN (q : CanvasObjectQueue) : Nat → Option (List (Option Val) × CanvasObjectQueue)
  | 0 => some ([], q)
  | n + 1 => match q.Out with
    | none => none
    | some (r, q') => match deqN q' n with
      | none => none
      | some (rs, q'') => some (r :: rs, q'')

end CanvasObjectQueue

/-! ### Representation predicate

`NodeChain heap a addrs tl l` says: starting at address `a`, following the
`next` pointers visits exactly the addresses `addrs`, ends at `tl` (whose
`next` is the `nil` pointer), and the values stored in the visited nodes
(excluding the start, whose value is never read — it is the sentinel) are
`l`, oldest first. -/
inductive NodeChain (heap : List itemCanvasObject) :
    Nat → List Nat → Nat → List (Option Val) → Prop
  | last (a : Nat) (it : itemCanvasObject) :
      heap[a]? = some it → it.next = none → NodeChain heap a [] a []
  | step (a b tl : Nat) (it itb : itemCanvasObject)
      (addrs : List Nat) (l : List (Option Val)) :
      heap[a]? = some it → it.next = some b → heap[b]? = some itb →
      NodeChain heap b addrs tl l →
      NodeChain heap a (b :: addrs) tl (itb.v :: l)

/-- The queue `q` represents the abstract content `l` (oldest first):
the heap chain from `head` ends exactly at `tail`, the visited addresses
are strictly increasing (nodes are allocated at ever-larger addresses and
`head` only ever advances along the chain), and the `uint64` length counter
equals the element count modulo `2^64`. -/
def ReprQ (q : CanvasObjectQueue) (l : List (Option Val)) : Prop :=
  ∃ addrs : List Nat,
    NodeChain q.heap q.head addrs q.tail l ∧
    List.Pairwise (· < ·) (q.head :: addrs) ∧
    q.len = l.length % U64

/-- States reachable from the constructor by the queue API. -/
inductive ReachQ : CanvasObjectQueue → Prop
  | init : ReachQ NewCanvasObjectQueue
  | enq (q q' : CanvasObjectQueue) (v : Option Val) :
      ReachQ q → q.In v = some q' → ReachQ q'
  | deq (q q' : CanvasObjectQueue) (r : Option Val) :
      ReachQ q → q.Out = some (r, q') → ReachQ q'

/-! ## Unbounded channel (`chanImpl` template)

`UnboundedCanvasObjectChan` is embedded as a transition system over the
complete system state.  The Go object owns three channels and a slice:

* `in`, `out`: buffered Go channels of capacity 16
  (`make(chan fyne.CanvasObject, 16)`), modelled as FIFO lists `inBuf`,
  `outBuf` bounded by 16;
* `close`: an unbuffered signalling channel; a `Close()` call is a
  rendezvous with the dispatcher's `select`, modelled as a single step that
  is enabled exactly when the dispatcher is parked at a `select` polling
  `ch.close`;
* `q`: the internal buffer slice, owned exclusively by the `processing`
  goroutine; `qcap` tracks Go's `cap(ch.q)` (slicing `q[1:]` loses one
  capacity slot, `append` beyond capacity reallocates).

The dispatcher's program counter `pc` distinguishes the positions of the
`processing` loop and the `closed` drain phase.  `inClosed`, `outClosed`,
`closeClosed` record which Go channels have been `close()`d.  The ghost
fields `sent` / `received` record every value accepted on the send endpoint
and every value delivered to a receiver; `eosObserved` records that a
receiver has seen the end-of-stream (a receive from the closed, drained
`out` channel). -/

/-- Positions of the dispatcher goroutine. -/
inductive PC
  /-- at the head of the outer `for` loop's `select` (`processing`). -/
  | outer
  /-- inside the inner `for len(ch.q) > 0` loop (`processing`). -/
  | inner
  /-- in `closed()`, flushing `ch.in` into `ch.q` (`for e := range ch.in`). -/
  | drain
  /-- in `closed()`, best-effort offering `ch.q` to `ch.out`. -/
  | flush
  /-- after `closed()` has closed `ch.out` and `ch.close`. -/
  | done
deriving Repr, DecidableEq

/-- The capacity of the `in` and `out` Go channels: `make(chan T, 16)`. -/
def chanCap : Nat := 16

/-- Complete state of an `UnboundedCanvasObjectChan` together with its
dispatcher goroutine and the ghost observation history. -/
structure UnboundedCanvasObjectChan where
  inBuf       : List Val
  outBuf      : List Val
  q           : List Val
  qcap        : Nat
  inClosed    : Bool
  outClosed   : Bool
  closeClosed : Bool
  pc          : PC
  sent        : List Val
  received    : List Val
  eosObserved : Bool
deriving Repr, DecidableEq

/-- `func NewUnboundedCanvasObjectChan()`: empty buffers, all channels open,
dispatcher started; the first thing `processing` does is pre-allocate
`ch.q = make([]T, 0, 1<<10)`, so the initial buffer capacity is 1024. -/
def NewUnboundedCanvasObjectChan : UnboundedCanvasObjectChan :=
  { inBuf := [], outBuf := [], q := [], qcap := 1024,
    inClosed := false, outClosed := false, closeClosed := false,
    pc := PC.outer, sent := [], received := [], eosObserved := false }

namespace UnboundedCanvasObjectChan

/-- How a Go channel operation fares: it proceeds now, parks the calling
goroutine, or is a fatal runtime error (Go run-time panic). -/
inductive ChanOp
  | ready
  | blocked
  | fatal
deriving Repr, DecidableEq

/-- Fate of `ch.In() <- v` in state `s`: sending on a closed channel is a
Go run-time panic; otherwise it proceeds exactly when the 16-slot buffer of
`ch.in` has room, and parks the sender when the buffer is full. -/
def sendStatus (s : UnboundedCanvasObjectChan) : ChanOp :=
  if s.inClosed then ChanOp.fatal
  else if s.inBuf.length < chanCap then ChanOp.ready
  else ChanOp.blocked

/-- Fate of `ch.Close()` (a send on `ch.close`) in state `s`:
sending on the closed `ch.close` is a Go run-time panic; otherwise the
unbuffered send proceeds exactly when the dispatcher is parked at a
`select` that polls `ch.close` — at the outer select, or at the inner
select (which only runs while `len(ch.q) > 0`). -/
def closeStatus (s : UnboundedCanvasObjectChan) : ChanOp :=
  if s.closeClosed then ChanOp.fatal
  else if s.pc = PC.outer ∨ (s.pc = PC.inner ∧ s.q ≠ []) then ChanOp.ready
  else ChanOp.blocked

/-- Go slice-append capacity arithmetic: `append(q, e)` keeps the backing
array while `len(q) < cap(q)` and otherwise reallocates to some strictly
larger capacity (the growth factor is a Go runtime detail the code does not
rely on, so it is left nondeterministic). -/
def appendCap (len cap ncap : Nat) : Prop :=
  (len < cap ∧ ncap = cap) ∨ (len = cap ∧ len + 1 ≤ ncap)

/-- The buffer-retention policy at the bottom of the outer loop of
`processing`, reached once the inner loop has fully drained `ch.q`:
`if cap(ch.q) < 1<<5 { ch.q = make([]T, 0, 1<<10) }`. -/
def reallocStep (s : UnboundedCanvasObjectChan) : UnboundedCanvasObjectChan :=
  { s with qcap := if s.qcap < 32 then 1024 else s.qcap, pc := PC.outer }

/-- Who moves: a client goroutine (sender, receiver, closer) or the
dispatcher goroutine running `processing`/`closed`. -/
inductive Lab
  | env
  | disp
deriving Repr, DecidableEq

/-- One interleaved step of the whole system.  Client steps (`Lab.env`)
are the channel's API; dispatcher steps (`Lab.disp`) are the positions of
`processing` and `closed` in `gen.go`. -/
inductive Step : UnboundedCanvasObjectChan → Lab → UnboundedCanvasObjectChan → Prop
  /-- a sender completes `ch.In() <- v`. -/
  | send (s : UnboundedCanvasObjectChan) (v : Val) :
      s.sendStatus = ChanOp.ready →
      Step s Lab.env
        { s with inBuf := s.inBuf ++ [v], sent := s.sent ++ [v] }
  /-- a receiver completes `<-ch.Out()`, getting a value. -/
  | recv (s : UnboundedCanvasObjectChan) (v : Val) (rest : List Val) :
      s.outBuf = v :: rest →
      Step s Lab.env
        { s with outBuf := rest, received := s.received ++ [v] }
  /-- a receiver completes `<-ch.Out()` on the closed, drained `out`
  channel: it observes end-of-stream. -/
  | recvEOS (s : UnboundedCanvasObjectChan) :
      s.outClosed = true → s.outBuf = [] →
      Step s Lab.env { s with eosObserved := true }
  /-- `ch.Close()` rendezvouses with a dispatcher `select`; the dispatcher
  runs `closed()`, whose first action is `close(ch.in)`. -/
  | closeCall (s : UnboundedCanvasObjectChan) :
      s.closeStatus = ChanOp.ready →
      Step s Lab.env { s with inClosed := true, pc := PC.drain }
  /-- outer select, `case e, ok := <-ch.in`: `ch.q = append(ch.q, e)`, then
  the inner loop's condition is evaluated. -/
  | takeInOuter (s : UnboundedCanvasObjectChan) (e : Val) (rest : List Val) (ncap : Nat) :
      s.pc = PC.outer → s.inBuf = e :: rest → appendCap s.q.length s.qcap ncap →
      Step s Lab.disp
        { s with inBuf := rest, q := s.q ++ [e], qcap := ncap, pc := PC.inner }
  /-- inner select, `case ch.out <- ch.q[0]`: deliver the buffer head
  (`ch.q[0] = nil; ch.q = ch.q[1:]` — slicing drops one capacity slot). -/
  | putOut (s : UnboundedCanvasObjectChan) (v : Val) (qrest : List Val) :
      s.pc = PC.inner → s.q = v :: qrest → s.outBuf.length < chanCap →
      Step s Lab.disp
        { s with outBuf := s.outBuf ++ [v], q := qrest, qcap := s.qcap - 1 }
  /-- inner select, `case e, ok := <-ch.in`: keep accepting sends while
  offering the head. -/
  | takeInInner (s : UnboundedCanvasObjectChan) (e : Val) (rest : List Val) (ncap : Nat) :
      s.pc = PC.inner → s.q ≠ [] → s.inBuf = e :: rest →
      appendCap s.q.length s.qcap ncap →
      Step s Lab.disp { s with inBuf := rest, q := s.q ++ [e], qcap := ncap }
  /-- the inner loop's condition fails (`len(ch.q) == 0`): run the
  reallocation policy and return to the outer select. -/
  | reallocCheck (s : UnboundedCanvasObjectChan) :
      s.pc = PC.inner → s.q = [] →
      Step s Lab.disp (reallocStep s)
  /-- `closed()`, `for e := range ch.in`: flush a pending send into the
  buffer. -/
  | drainTake (s : UnboundedCanvasObjectChan) (e : Val) (rest : List Val) (ncap : Nat) :
      s.pc = PC.drain → s.inBuf = e :: rest → appendCap s.q.length s.qcap ncap →
      Step s Lab.disp { s with inBuf := rest, q := s.q ++ [e], qcap := ncap }
  /-- `closed()`: the `range` loop over the closed `ch.in` ends. -/
  | drainDone (s : UnboundedCanvasObjectChan) :
      s.pc = PC.drain → s.inBuf = [] →
      Step s Lab.disp { s with pc := PC.flush }
  /-- `closed()`, `case ch.out <- ch.q[0]` of the best-effort loop (its
  `default` branch is a no-op, hence not a state change). -/
  | flushPut (s : UnboundedCanvasObjectChan) (v : Val) (qrest : List Val) :
      s.pc = PC.flush → s.q = v :: qrest → s.outBuf.length < chanCap →
      Step s Lab.disp
        { s with outBuf := s.outBuf ++ [v], q := qrest, qcap := s.qcap - 1 }
  /-- `closed()` finishes: `close(ch.out); close(ch.close)`. -/
  | flushDone (s : UnboundedCanvasObjectChan) :
      s.pc = PC.flush → s.q = [] →
      Step s Lab.disp
        { s with outClosed := true, closeClosed := true, pc := PC.done }

/-- System states reachable from a fresh channel. -/
inductive Reach : UnboundedCanvasObjectChan → Prop
  | init : Reach NewUnboundedCanvasObjectChan
  | step (s s' : UnboundedCanvasObjectChan) (lab : Lab) :
      Reach s → Step s lab s' → Reach s'

/-- The inductive invariant of the channel system.  `conserve` is the heart:
the sequence of accepted values is exactly the delivered prefix followed by
the in-flight values in pipeline order (`out` buffer, then the internal
buffer, then the `in` buffer). -/
structure Inv (s : UnboundedCanvasObjectChan) : Prop where
  conserve : s.sent = s.received ++ s.outBuf ++ s.q ++ s.inBuf
  inClosed_iff : s.inClosed = true ↔
    (s.pc = PC.drain ∨ s.pc = PC.flush ∨ s.pc = PC.done)
  outClosed_iff : s.outClosed = true ↔ s.pc = PC.done
  closeClosed_iff : s.closeClosed = true ↔ s.pc = PC.done
  done_empty : s.pc = PC.done → s.q = [] ∧ s.inBuf = []
  flush_inBuf : s.pc = PC.flush → s.inBuf = []
  eos : s.eosObserved = true → s.outBuf = [] ∧ s.pc = PC.done

end UnboundedCanvasObjectChan

/-! ### Concrete states used to instantiate the theorems -/

/-- Queue state after `In(nil)` on a fresh queue: the freshly allocated
node (address 1) is linked behind the sentinel and holds the `nil` payload. -/
def q9a : CanvasObjectQueue :=
  { head := 0, tail := 1, len := 1,
    heap := [{ next := some 1, v := none }, { next := none, v := none }] }

/-- Queue state after `In(nil)` followed by `Out()`: the head has advanced
to the node that held `nil`, and the length counter is back to zero. -/
def q9b : CanvasObjectQueue :=
  { head := 1, tail := 1, len := 0,
    heap := [{ next := some 1, v := none }, { next := none, v := none }] }

/-- Channel state after a fresh channel accepted 16 sends of value `0`
with the dispatcher never scheduled: the `in` buffer is full. -/
def sentN (n : Nat) : UnboundedCanvasObjectChan :=
  { NewUnboundedCanvasObjectChan with
    inBuf := List.replicate n 0, sent := List.replicate n 0 }

/-- A dispatcher parked at the inner-loop exit with a drained buffer whose
residual capacity fell to 5 (below the 32 threshold). -/
def chanSmallCap : UnboundedCanvasObjectChan :=
  { NewUnboundedCanvasObjectChan with pc := PC.inner, qcap := 5 }

/-- Execution trace: fresh channel, `In() <- 7`. -/
def chanTrace1 : UnboundedCanvasObjectChan :=
  { NewUnboundedCanvasObjectChan with inBuf := [7], sent := [7] }

/-- ... then `Close()` rendezvouses; the dispatcher enters `closed()` and
closes `ch.in`. -/
def chanTrace2 : UnboundedCanvasObjectChan :=
  { chanTrace1 with inClosed := true, pc := PC.drain }

/-- ... the drain loop flushes the pending send into the buffer. -/
def chanTrace3 : UnboundedCanvasObjectChan :=
  { chanTrace2 with inBuf := [], q := [7] }

/-- ... the drain loop ends (`ch.in` exhausted). -/
def chanTrace4 : UnboundedCanvasObjectChan :=
  { chanTrace3 with pc := PC.flush }

/-- ... the best-effort flush hands the value to `ch.out`. -/
def chanTrace5 : UnboundedCanvasObjectChan :=
  { chanTrace4 with outBuf := [7], q := [], qcap := 1023 }

/-- ... `closed()` finishes: `close(ch.out); close(ch.close)`. -/
def chanTrace6 : UnboundedCanvasObjectChan :=
  { chanTrace5 with outClosed := true, closeClosed := true, pc := PC.done }

/-- ... a receiver (first read after `Close()` returned) gets the value. -/
def chanTrace7 : UnboundedCanvasObjectChan :=
  { chanTrace6 with outBuf := [], received := [7] }

/-- ... the next receive observes end-of-stream. -/
def chanTrace8 : UnboundedCanvasObjectChan :=
  { chanTrace7 with eosObserved := true }

/-- Every address on a chain is a valid heap index. -/
theorem NodeChain.mem_lt {heap : List itemCanvasObject} {a tl : Nat}
    {addrs : List Nat} {l : List (Option Val)}
    (h : NodeChain heap a addrs tl l) :
    ∀ x ∈ a :: addrs, x < heap.length := by
  induction h with
  | last a it ha hn =>
    intro x hx
    simp only [List.mem_singleton] at hx
    subst hx
    exact (List.getElem?_eq_some_iff.mp ha).1
  | step a b tl it itb addrs l ha hn hb _ ih =>
    intro x hx
    rcases List.mem_cons.mp hx with rfl | hx
    · exact (List.getElem?_eq_some_iff.mp ha).1
    · exact ih x hx

/-- A chain ends at its last visited address. -/
theorem NodeChain.tail_eq_getLast {heap : List itemCanvasObject} {a tl : Nat}
    {addrs : List Nat} {l : List (Option Val)}
    (h : NodeChain heap a addrs tl l) :
    tl = (a :: addrs).getLast (by simp) := by
  induction h with
  | last a it ha hn => simp
  | step a b tl it itb addrs l ha hn hb hc ih =>
    rw [ih]
    exact (List.getLast_cons (by simp)).symm

/-- The node at the end of a chain exists and has a `nil` forward pointer. -/
theorem NodeChain.tail_node {heap : List itemCanvasObject} {a tl : Nat}
    {addrs : List Nat} {l : List (Option Val)}
    (h : NodeChain heap a addrs tl l) :
    ∃ it, heap[tl]? = some it ∧ it.next = none := by
  induction h with
  | last a it ha hn => exact ⟨it, ha, hn⟩
  | step a b tl it itb addrs l ha hn hb hc ih => exact ih

/-- Chains have as many visited addresses as values. -/
theorem NodeChain.length_eq {heap : List itemCanvasObject} {a tl : Nat}
    {addrs : List Nat} {l : List (Option Val)}
    (h : NodeChain heap a addrs tl l) : addrs.length = l.length := by
  induction h with
  | last _ _ _ _ => rfl
  | step a b tl it itb addrs l ha hn hb hc ih => simpa using ih

/-- Inverting an empty chain: it is a single node, which is both the head
and the tail, and its forward pointer is `nil`. -/
theorem NodeChain.nil_inv {heap : List itemCanvasObject} {a tl : Nat}
    {addrs : List Nat} (h : NodeChain heap a addrs tl []) :
    a = tl ∧ addrs = [] ∧ ∃ it, heap[a]? = some it ∧ it.next = none := by
  cases h with
  | last a it ha hn => exact ⟨rfl, rfl, it, ha, hn⟩

/-- Inverting a non-empty chain: the head node points at a successor `b`
holding the first value, and the rest of the chain starts at `b`. -/
theorem NodeChain.cons_inv {heap : List itemCanvasObject} {a tl : Nat}
    {addrs0 : List Nat} {v : Option Val} {l : List (Option Val)}
    (h : NodeChain heap a addrs0 tl (v :: l)) :
    ∃ b addrs it itb, addrs0 = b :: addrs ∧
      heap[a]? = some it ∧ it.next = some b ∧ heap[b]? = some itb ∧
      itb.v = v ∧ NodeChain heap b addrs tl l := by
  cases h with
  | step a b tl it itb addrs l ha hn hb hc =>
    exact ⟨b, addrs, it, itb, rfl, ha, hn, hb, rfl, hc⟩

/-- Growing the heap by fresh allocations does not disturb a chain. -/
theorem NodeChain.extend {heap ext : List itemCanvasObject} {a tl : Nat}
    {addrs : List Nat} {l : List (Option Val)}
    (h : NodeChain heap a addrs tl l) :
    NodeChain (heap ++ ext) a addrs tl l := by
  induction h with
  | last a it ha hn =>
    exact NodeChain.last a it
      (by rw [List.getElem?_append_left (List.getElem?_eq_some_iff.mp ha).1]; exact ha) hn
  | step a b tl it itb addrs l ha hn hb _ ih =>
    exact NodeChain.step a b tl it itb addrs l
      (by rw [List.getElem?_append_left (List.getElem?_eq_some_iff.mp ha).1]; exact ha)
      hn
      (by rw [List.getElem?_append_left (List.getElem?_eq_some_iff.mp hb).1]; exact hb)
      ih

/-- Linking a freshly allocated node behind the chain's end extends the
chain by that node: this is the effect of `In`'s successful pair of CAS
operations on the heap. -/
theorem NodeChain.link {heap : List itemCanvasObject} {a tl : Nat}
    {addrs : List Nat} {l : List (Option Val)}
    (h : NodeChain heap a addrs tl l)
    (hpw : List.Pairwise (· < ·) (a :: addrs))
    {it : itemCanvasObject} (hit : heap[tl]? = some it) (v : Option Val) :
    NodeChain
      ((heap ++ [newNode v]).set tl { it with next := some heap.length })
      a (addrs ++ [heap.length]) heap.length (l ++ [v]) := by
  induction h with
  | last a it0 ha hn =>
    have hil : it0 = it := by rw [ha] at hit; exact Option.some.inj hit
    subst hil
    have hlt : a < heap.length := (List.getElem?_eq_some_iff.mp ha).1
    have hlt1 : a < (heap ++ [newNode v]).length := by
      simp only [List.length_append, List.length_singleton]; omega
    have h2a :
        ((heap ++ [newNode v]).set a { it0 with next := some heap.length })[a]? =
          some { it0 with next := some heap.length } :=
      List.getElem?_set_self hlt1
    have h2n :
        ((heap ++ [newNode v]).set a { it0 with next := some heap.length })[heap.length]? =
          some (newNode v) := by
      rw [List.getElem?_set_ne (by omega : a ≠ heap.length)]
      exact List.getElem?_concat_length heap _
    simp only [List.nil_append]
    exact NodeChain.step a heap.length heap.length _ _ [] [] h2a rfl h2n
      (NodeChain.last heap.length _ h2n rfl)
  | step a b tl it0 itb addrs l ha hn hb hc ih =>
    have hmem : tl ∈ b :: addrs := by
      rw [hc.tail_eq_getLast]; exact List.getLast_mem _
    have hane : a ≠ tl := by
      have := (List.pairwise_cons.mp hpw).1 tl hmem
      omega
    have hlt : a < heap.length := (List.getElem?_eq_some_iff.mp ha).1
    have h2a :
        ((heap ++ [newNode v]).set tl { it with next := some heap.length })[a]? =
          some it0 := by
      rw [List.getElem?_set_ne (fun hh => hane hh.symm),
        List.getElem?_append_left hlt]
      exact ha
    have ih' := ih hpw.of_cons hit
    simp only [List.cons_append]
    by_cases hbtl : b = tl
    · subst hbtl
      have hib : itb = it := by rw [hb] at hit; exact Option.some.inj hit
      subst hib
      have hltb1 : b < (heap ++ [newNode v]).length := by
        have := (List.getElem?_eq_some_iff.mp hb).1
        simp only [List.length_append, List.length_singleton]; omega
      have h2b :
          ((heap ++ [newNode v]).set b { itb with next := some heap.length })[b]? =
            some { itb with next := some heap.length } :=
        List.getElem?_set_self hltb1
      exact NodeChain.step a b heap.length it0 { itb with next := some heap.length }
        _ _ h2a hn h2b ih'
    · have h2b :
          ((heap ++ [newNode v]).set tl { it with next := some heap.length })[b]? =
            some itb := by
        rw [List.getElem?_set_ne (fun hh => hbtl hh.symm),
          List.getElem?_append_left (List.getElem?_eq_some_iff.mp hb).1]
        exact hb
      exact NodeChain.step a b heap.length it0 itb _ _ h2a hn h2b ih'

namespace CanvasObjectQueue

theorem reprQ_new : ReprQ NewCanvasObjectQueue [] := by
  refine ⟨[], ?_, ?_, rfl⟩
  · exact NodeChain.last 0 (newNode none) rfl rfl
  · simp

theorem inLoop_succ (i fuel : Nat) (q : CanvasObjectQueue) :
    inLoop i (fuel + 1) q =
      match q.nodeAt q.tail with
      | none => none
      | some last =>
        match last.next with
        | none =>
          some { q with
            heap := q.heap.set q.tail { last with next := some i },
            tail := i,
            len := (q.len + 1) % U64 }
        | some nxt => inLoop i fuel { q with tail := nxt } := rfl

theorem outLoop_succ (fuel : Nat) (q : CanvasObjectQueue) :
    outLoop (fuel + 1) q =
      match q.nodeAt q.head with
      | none => none
      | some first =>
        if q.head = q.tail then
          match first.next with
          | none => some (none, q)
          | some nxt => outLoop fuel { q with tail := nxt }
        else
          match first.next with
          | none => none
          | some nxt =>
            match q.nodeAt nxt with
            | none => none
            | some fn =>
              some (fn.v, { q with head := nxt, len := (q.len + (U64 - 1)) % U64 }) := rfl

/-- `In` on a well-represented queue takes the direct path (the tail never
lags in single-threaded execution), succeeds, and appends the value to the
abstract content. -/
theorem In_spec {q : CanvasObjectQueue} {l : List (Option Val)}
    (h : ReprQ q l) (v : Option Val) :
    ∃ q', q.In v = some q' ∧ ReprQ q' (l ++ [v]) ∧
      q'.len = (q.len + 1) % U64 ∧ q'.head = q.head := by
  obtain ⟨addrs, hc, hpw, hlen⟩ := h
  obtain ⟨it, hit, hnext⟩ := hc.tail_node
  have hit1 : (q.heap ++ [newNode v])[q.tail]? = some it := by
    rw [List.getElem?_append_left (List.getElem?_eq_some_iff.mp hit).1]; exact hit
  refine ⟨{ head := q.head, tail := q.heap.length, len := (q.len + 1) % U64,
            heap := (q.heap ++ [newNode v]).set q.tail { it with next := some q.heap.length } },
    ?_, ⟨addrs ++ [q.heap.length], ?_, ?_, ?_⟩, rfl, rfl⟩
  · show inLoop q.heap.length (q.heap.length + 1 + 1) _ = _
    rw [inLoop_succ]
    simp only [nodeAt]
    simp only [hit1, hnext]
  · exact hc.link hpw hit v
  · refine List.pairwise_append.mpr ⟨hpw, List.pairwise_singleton _ _, ?_⟩
    intro x hx y hy
    simp only [List.mem_singleton] at hy
    subst hy
    exact hc.mem_lt x hx
  · simp only [List.length_append, List.length_singleton, hlen, U64]
    omega

/-- `Out` on an empty well-represented queue returns `nil` and leaves the
entire state (head, tail, length counter, heap) unchanged. -/
theorem Out_empty {q : CanvasObjectQueue} (h : ReprQ q []) :
    q.Out = some (none, q) := by
  obtain ⟨addrs, hc, hpw, hlen⟩ := h
  obtain ⟨heq, haddrs, it, hit, hnext⟩ := hc.nil_inv
  show outLoop (q.heap.length + 1 + 1) q = _
  rw [outLoop_succ]
  simp only [nodeAt]
  simp only [hit, if_pos heq, hnext]

/-- `Out` on a non-empty well-represented queue takes the direct path,
returns the oldest value, advances the head, and decrements the length
counter modulo `2^64`. -/
theorem Out_cons {q : CanvasObjectQueue} {v : Option Val} {l : List (Option Val)}
    (h : ReprQ q (v :: l)) :
    ∃ q', q.Out = some (v, q') ∧ ReprQ q' l ∧
      q'.len = (q.len + (U64 - 1)) % U64 ∧ q'.head ≠ q.head ∧
      q'.tail = q.tail ∧ q'.heap = q.heap := by
  obtain ⟨addrs0, hc, hpw, hlen⟩ := h
  obtain ⟨b, addrs, it, itb, rfl, ha, hn, hb, hv, hc'⟩ := hc.cons_inv
  have hmem : q.tail ∈ b :: addrs := by
    rw [hc'.tail_eq_getLast]; exact List.getLast_mem _
  have hane : q.head ≠ q.tail := by
    have := (List.pairwise_cons.mp hpw).1 q.tail hmem
    omega
  have hbne : b ≠ q.head := by
    have := (List.pairwise_cons.mp hpw).1 b (by simp)
    omega
  refine ⟨{ head := b, tail := q.tail, len := (q.len + (U64 - 1)) % U64, heap := q.heap },
    ?_, ⟨addrs, hc', hpw.of_cons, ?_⟩, rfl, hbne, rfl, rfl⟩
  · show outLoop (q.heap.length + 1 + 1) q = _
    rw [outLoop_succ]
    simp only [nodeAt]
    simp only [ha, if_neg hane, hn, hb, hv]
  · simp only [List.length_cons, U64] at hlen ⊢
    omega

/-- Enqueueing a list of values appends it to the abstract content. -/
theorem enqList_spec {l : List (Option Val)} (vs : List (Option Val)) :
    ∀ {q : CanvasObjectQueue}, ReprQ q l →
      ∃ q', q.enqList vs = some q' ∧ ReprQ q' (l ++ vs) := by
  induction vs generalizing l with
  | nil => exact fun h => ⟨_, rfl, by simpa using h⟩
  | cons v vs ih =>
    intro q h
    obtain ⟨q1, hin, h1, -, -⟩ := In_spec h v
    obtain ⟨q', henq, h'⟩ := ih (l := l ++ [v]) h1
    refine ⟨q', ?_, by simpa using h'⟩
    simp only [enqList, hin, henq]

/-- Dequeueing as many times as there are elements returns exactly the
abstract content, in order, and empties the queue. -/
theorem deqN_spec : ∀ (l : List (Option Val)) {q : CanvasObjectQueue},
    ReprQ q l → ∃ q', q.deqN l.length = some (l, q') ∧ ReprQ q' [] := by
  intro l
  induction l with
  | nil => exact fun h => ⟨_, rfl, h⟩
  | cons v l ih =>
    intro q h
    obtain ⟨q1, hout, h1, -, -, -, -⟩ := Out_cons h
    obtain ⟨q', hdeq, h'⟩ := ih h1
    refine ⟨q', ?_, h'⟩
    simp only [List.length_cons, deqN, hout, hdeq]

/-- Every reachable queue state represents some abstract content: the
fundamental invariant of the queue. -/
theorem reachQ_repr {q : CanvasObjectQueue} (h : ReachQ q) :
    ∃ l, ReprQ q l := by
  induction h with
  | init => exact ⟨[], reprQ_new⟩
  | enq q q' v _ hin ih =>
    obtain ⟨l, hl⟩ := ih
    obtain ⟨q'', hin', h'', -, -⟩ := In_spec hl v
    rw [hin] at hin'
    exact ⟨l ++ [v], Option.some.inj hin' ▸ h''⟩
  | deq q q' r _ hout ih =>
    obtain ⟨l, hl⟩ := ih
    cases l with
    | nil =>
      have := Out_empty hl
      rw [hout] at this
      obtain ⟨-, rfl⟩ := Prod.mk.injEq .. ▸ Option.some.inj this
      exact ⟨[], hl⟩
    | cons v l =>
      obtain ⟨q'', hout', h'', -, -, -, -⟩ := Out_cons hl
      rw [hout] at hout'
      obtain ⟨-, rfl⟩ := Prod.mk.injEq .. ▸ Option.some.inj hout'
      exact ⟨l, h''⟩

end CanvasObjectQueue


namespace UnboundedCanvasObjectChan

theorem sendStatus_ready_iff (s : UnboundedCanvasObjectChan) :
    s.sendStatus = ChanOp.ready ↔ s.inClosed = false ∧ s.inBuf.length < chanCap := by
  unfold sendStatus
  split_ifs <;> simp_all

theorem sendStatus_fatal {s : UnboundedCanvasObjectChan} (h : s.inClosed = true) :
    s.sendStatus = ChanOp.fatal := by
  simp [sendStatus, h]

theorem closeStatus_ready_iff (s : UnboundedCanvasObjectChan) :
    s.closeStatus = ChanOp.ready ↔
      s.closeClosed = false ∧ (s.pc = PC.outer ∨ (s.pc = PC.inner ∧ s.q ≠ [])) := by
  unfold closeStatus
  split_ifs <;> simp_all

theorem closeStatus_fatal {s : UnboundedCanvasObjectChan} (h : s.closeClosed = true) :
    s.closeStatus = ChanOp.fatal := by
  simp [closeStatus, h]

/-- Every reachable channel state satisfies the inductive invariant. -/
theorem reach_inv {s : UnboundedCanvasObjectChan} (h : Reach s) : Inv s := by
  induction h with
  | init =>
    refine ⟨?_, ?_, ?_, ?_, ?_, ?_, ?_⟩ <;> decide
  | step s1 s2 lab hr hst ih =>
    obtain ⟨hcons, hin, hout, hcc, hde, hfi, heos⟩ := ih
    cases hst with
    | send v hready =>
      obtain ⟨hicF, -⟩ := (sendStatus_ready_iff s1).mp hready
      refine ⟨?_, hin, hout, hcc, ?_, ?_, ?_⟩
      · show s1.sent ++ [v] = s1.received ++ s1.outBuf ++ s1.q ++ (s1.inBuf ++ [v])
        rw [hcons]; simp [List.append_assoc]
      · intro hpd
        have := hin.mpr (Or.inr (Or.inr hpd))
        rw [hicF] at this; cases this
      · intro hpf
        have := hin.mpr (Or.inr (Or.inl hpf))
        rw [hicF] at this; cases this
      · intro he
        have := hin.mpr (Or.inr (Or.inr (heos he).2))
        rw [hicF] at this; cases this
    | recv v rest hob =>
      refine ⟨?_, hin, hout, hcc, hde, hfi, ?_⟩
      · show s1.sent = s1.received ++ [v] ++ rest ++ s1.q ++ s1.inBuf
        rw [hcons, hob]; simp [List.append_assoc]
      · intro he
        have h2 := (heos he).1
        rw [hob] at h2; cases h2
    | recvEOS houtc hob =>
      exact ⟨hcons, hin, hout, hcc, hde, hfi, fun _ => ⟨hob, hout.mp houtc⟩⟩
    | closeCall hready =>
      obtain ⟨hccF, hpcw⟩ := (closeStatus_ready_iff s1).mp hready
      have hpcne : s1.pc ≠ PC.done := by
        rcases hpcw with hh | ⟨hh, -⟩ <;> rw [hh] <;> exact fun hx => PC.noConfusion hx
      have houtF : s1.outClosed = false := by
        rcases hoc : s1.outClosed with _ | _
        · rfl
        · exact absurd (hout.mp hoc) hpcne
      refine ⟨hcons, by simp, by simp [houtF], by simp [hccF], ?_, ?_, ?_⟩
      · intro hpd; cases hpd
      · intro hpf; cases hpf
      · intro he; exact absurd (heos he).2 hpcne
    | takeInOuter e rest ncap hpc hib hcap =>
      have hicF : s1.inClosed = false := by
        rcases hic : s1.inClosed with _ | _
        · rfl
        · rcases hin.mp hic with hh | hh | hh <;> rw [hpc] at hh <;> cases hh
      have houtF : s1.outClosed = false := by
        rcases hoc : s1.outClosed with _ | _
        · rfl
        · have := hout.mp hoc; rw [hpc] at this; cases this
      have hccF : s1.closeClosed = false := by
        rcases hc2 : s1.closeClosed with _ | _
        · rfl
        · have := hcc.mp hc2; rw [hpc] at this; cases this
      refine ⟨?_, by simp [hicF], by simp [houtF], by simp [hccF], ?_, ?_, ?_⟩
      · show s1.sent = s1.received ++ s1.outBuf ++ (s1.q ++ [e]) ++ rest
        rw [hcons, hib]; simp [List.append_assoc]
      · intro hpd; cases hpd
      · intro hpf; cases hpf
      · intro he
        have := (heos he).2; rw [hpc] at this; cases this
    | putOut v qrest hpc hq hob =>
      refine ⟨?_, hin, hout, hcc, ?_, ?_, ?_⟩
      · show s1.sent = s1.received ++ (s1.outBuf ++ [v]) ++ qrest ++ s1.inBuf
        rw [hcons, hq]; simp [List.append_assoc]
      · intro hpd; rw [hpc] at hpd; cases hpd
      · intro hpf; rw [hpc] at hpf; cases hpf
      · intro he
        have := (heos he).2; rw [hpc] at this; cases this
    | takeInInner e rest ncap hpc hqne hib hcap =>
      refine ⟨?_, hin, hout, hcc, ?_, ?_, ?_⟩
      · show s1.sent = s1.received ++ s1.outBuf ++ (s1.q ++ [e]) ++ rest
        rw [hcons, hib]; simp [List.append_assoc]
      · intro hpd; rw [hpc] at hpd; cases hpd
      · intro hpf; rw [hpc] at hpf; cases hpf
      · intro he
        have := (heos he).2; rw [hpc] at this; cases this
    | reallocCheck hpc hqe =>
      have hicF : s1.inClosed = false := by
        rcases hic : s1.inClosed with _ | _
        · rfl
        · rcases hin.mp hic with hh | hh | hh <;> rw [hpc] at hh <;> cases hh
      have houtF : s1.outClosed = false := by
        rcases hoc : s1.outClosed with _ | _
        · rfl
        · have := hout.mp hoc; rw [hpc] at this; cases this
      have hccF : s1.closeClosed = false := by
        rcases hc2 : s1.closeClosed with _ | _
        · rfl
        · have := hcc.mp hc2; rw [hpc] at this; cases this
      refine ⟨hcons, by simp [reallocStep, hicF], by simp [reallocStep, houtF],
        by simp [reallocStep, hccF], ?_, ?_, ?_⟩
      · intro hpd; simp [reallocStep] at hpd
      · intro hpf; simp [reallocStep] at hpf
      · intro he
        have := (heos he).2; rw [hpc] at this; cases this
    | drainTake e rest ncap hpc hib hcap =>
      refine ⟨?_, hin, hout, hcc, ?_, ?_, ?_⟩
      · show s1.sent = s1.received ++ s1.outBuf ++ (s1.q ++ [e]) ++ rest
        rw [hcons, hib]; simp [List.append_assoc]
      · intro hpd; rw [hpc] at hpd; cases hpd
      · intro hpf; rw [hpc] at hpf; cases hpf
      · intro he
        have := (heos he).2; rw [hpc] at this; cases this
    | drainDone hpc hib =>
      have hicT : s1.inClosed = true := hin.mpr (Or.inl hpc)
      have houtF : s1.outClosed = false := by
        rcases hoc : s1.outClosed with _ | _
        · rfl
        · have := hout.mp hoc; rw [hpc] at this; cases this
      have hccF : s1.closeClosed = false := by
        rcases hc2 : s1.closeClosed with _ | _
        · rfl
        · have := hcc.mp hc2; rw [hpc] at this; cases this
      refine ⟨hcons, by simp [hicT], by simp [houtF], by simp [hccF], ?_, ?_, ?_⟩
      · intro hpd; cases hpd
      · intro _; exact hib
      · intro he
        have := (heos he).2; rw [hpc] at this; cases this
    | flushPut v qrest hpc hq hob =>
      refine ⟨?_, hin, hout, hcc, ?_, ?_, ?_⟩
      · show s1.sent = s1.received ++ (s1.outBuf ++ [v]) ++ qrest ++ s1.inBuf
        rw [hcons, hq]; simp [List.append_assoc]
      · intro hpd; rw [hpc] at hpd; cases hpd
      · intro _; exact hfi hpc
      · intro he
        have := (heos he).2; rw [hpc] at this; cases this
    | flushDone hpc hqe =>
      have hicT : s1.inClosed = true := hin.mpr (Or.inr (Or.inl hpc))
      refine ⟨hcons, by simp [hicT], by simp, by simp, ?_, ?_, ?_⟩
      · intro _; exact ⟨hqe, hfi hpc⟩
      · intro hpf; cases hpf
      · intro he; exact ⟨(heos he).1, rfl⟩

end UnboundedCanvasObjectChan


/-! ## Reachability of the concrete trace states -/

namespace UnboundedCanvasObjectChan

theorem sentN_reach : ∀ n, n ≤ chanCap → Reach (sentN n) := by
  intro n
  induction n with
  | zero => intro _; exact Reach.init
  | succ n ih =>
    intro h
    have hr := ih (by omega)
    have hready : (sentN n).sendStatus = ChanOp.ready := by
      refine (sendStatus_ready_iff _).mpr ⟨rfl, ?_⟩
      simp only [sentN, List.length_replicate]
      omega
    have he : sentN (n + 1) =
        { sentN n with inBuf := (sentN n).inBuf ++ [0], sent := (sentN n).sent ++ [0] } := by
      simp [sentN, List.replicate_succ']
    rw [he]
    exact Reach.step _ _ _ hr (Step.send (sentN n) 0 hready)

theorem chanTrace1_reach : Reach chanTrace1 :=
  Reach.step _ _ _ Reach.init (Step.send NewUnboundedCanvasObjectChan 7 (by decide))

theorem chanTrace2_reach : Reach chanTrace2 :=
  Reach.step _ _ _ chanTrace1_reach (Step.closeCall chanTrace1 (by decide))

theorem chanTrace3_reach : Reach chanTrace3 :=
  Reach.step _ _ _ chanTrace2_reach
    (Step.drainTake chanTrace2 7 [] 1024 (by decide) (by decide) (Or.inl (by decide)))

theorem chanTrace4_reach : Reach chanTrace4 :=
  Reach.step _ _ _ chanTrace3_reach (Step.drainDone chanTrace3 (by decide) (by decide))

theorem chanTrace5_reach : Reach chanTrace5 :=
  Reach.step _ _ _ chanTrace4_reach
    (Step.flushPut chanTrace4 7 [] (by decide) (by decide) (by decide))

theorem chanTrace6_reach : Reach chanTrace6 :=
  Reach.step _ _ _ chanTrace5_reach (Step.flushDone chanTrace5 (by decide) (by decide))

theorem chanTrace7_reach : Reach chanTrace7 :=
  Reach.step _ _ _ chanTrace6_reach (Step.recv chanTrace6 7 [] (by decide))

theorem chanTrace8_reach : Reach chanTrace8 :=
  Reach.step _ _ _ chanTrace7_reach (Step.recvEOS chanTrace7 (by decide) (by decide))

end UnboundedCanvasObjectChan

/-! ## The claims -/

open CanvasObjectQueue UnboundedCanvasObjectChan

/-- C1: for every sequence of values `v1..vn` sent on the channel's send
endpoint followed by one call to `Close()`, with no receives performed
until after `Close()` returns, the receive endpoint yields exactly
`v1..vn` in order and only then signals end-of-stream.  Formally: in every
reachable system state in which a receiver has observed end-of-stream, the
sequence of values delivered on the receive endpoint equals the entire
sequence of values accepted on the send endpoint, in order — so no value
sent before close is dropped or reordered, and end-of-stream is observable
only after all of them were delivered.  (This covers the claim's scenario:
the trace may perform all its receives after `Close()` returned.) -/
theorem chan_drain_on_close {s : UnboundedCanvasObjectChan}
    (h : Reach s) (he : s.eosObserved = true) :
    s.received = s.sent := by
  obtain ⟨hcons, hin, hout, hcc, hde, hfi, heos⟩ := reach_inv h
  obtain ⟨hob, hpd⟩ := heos he
  obtain ⟨hq, hib⟩ := hde hpd
  rw [hcons, hob, hq, hib]
  simp

theorem chan_drain_on_close_witness : chanTrace8.received = chanTrace8.sent :=
  chan_drain_on_close chanTrace8_reach rfl

/-- C2: for every sequence of values sent on one send endpoint of an open
channel, a single receiver observes each sent value exactly once and in
exactly the send order.  Formally: in every reachable state the accepted
sequence `sent` is exactly the delivered sequence `received` followed by
the in-flight values in pipeline order — so the receiver's observations
are a prefix of the send sequence (no reordering, duplication) and every
remaining value is still in transit (no loss). -/
theorem chan_order_preservation {s : UnboundedCanvasObjectChan} (h : Reach s) :
    s.sent = s.received ++ s.outBuf ++ s.q ++ s.inBuf ∧
    s.received <+: s.sent := by
  have hcons := (reach_inv h).conserve
  refine ⟨hcons, s.outBuf ++ s.q ++ s.inBuf, ?_⟩
  rw [hcons]
  simp [List.append_assoc]

theorem chan_order_preservation_witness :
    chanTrace1.sent =
      chanTrace1.received ++ chanTrace1.outBuf ++ chanTrace1.q ++ chanTrace1.inBuf ∧
    chanTrace1.received <+: chanTrace1.sent :=
  chan_order_preservation chanTrace1_reach

/-- C3: for every `n` and values `v1..vn`, enqueueing `v1..vn` into a
freshly constructed queue (single-threaded) and then dequeueing `n` times
yields `v1..vn` in that order, and an `(n+1)`-th dequeue returns the
empty result `nil` (with the queue unchanged, so it is indeed the empty
result). -/
theorem queue_fifo_single_threaded (vs : List (Option Val)) :
    ∃ q1 q2, NewCanvasObjectQueue.enqList vs = some q1 ∧
      q1.deqN vs.length = some (vs, q2) ∧
      q2.Out = some (none, q2) := by
  obtain ⟨q1, henq, h1⟩ := enqList_spec vs reprQ_new
  rw [List.nil_append] at h1
  obtain ⟨q2, hdeq, h2⟩ := deqN_spec vs h1
  exact ⟨q1, q2, henq, hdeq, Out_empty h2⟩

/-- C4 (counterexample): the claim says `send(v)` never blocks the calling
task regardless of how many values are already buffered and whether the
dispatcher is busy.  This is false: after 16 sends accepted while the
dispatcher was never scheduled, the `in` staging channel (capacity 16) is
full and a further send blocks the caller until the dispatcher drains a
slot. -/
theorem chan_send_can_block_counterexample :
    Reach (sentN chanCap) ∧ (sentN chanCap).sendStatus = ChanOp.blocked :=
  ⟨sentN_reach chanCap (Nat.le_refl _), by decide⟩

/-- C4 (amended): a send completes immediately (in a single step, without
suspending the caller and without any interaction with the dispatcher or
the consumer) whenever the channel is open and the 16-slot inbound staging
buffer has a free slot; only when that bounded staging buffer is full does
a send block, until the dispatcher drains a slot — it never waits on the
consumer. -/
theorem chan_send_ready_iff_slot_free (s : UnboundedCanvasObjectChan) (v : Val) :
    (s.inClosed = false ∧ s.inBuf.length < chanCap →
      Step s Lab.env { s with inBuf := s.inBuf ++ [v], sent := s.sent ++ [v] }) ∧
    (s.inClosed = false ∧ chanCap ≤ s.inBuf.length →
      s.sendStatus = ChanOp.blocked) := by
  constructor
  · intro h
    exact Step.send s v ((sendStatus_ready_iff s).mpr ⟨h.1, h.2⟩)
  · intro h
    simp [sendStatus, h.1, Nat.not_lt.mpr h.2]

theorem chan_send_ready_iff_slot_free_witness :
    Step NewUnboundedCanvasObjectChan Lab.env chanTrace1 ∧
    (sentN chanCap).sendStatus = ChanOp.blocked :=
  ⟨(chan_send_ready_iff_slot_free NewUnboundedCanvasObjectChan 7).1 ⟨rfl, by decide⟩,
   (chan_send_ready_iff_slot_free (sentN chanCap) 0).2 ⟨rfl, by decide⟩⟩

/-- C5: after `Close()` has taken effect (the dispatcher has entered its
`closed()` drain phase, whose first action closes `ch.in`), any further
send on the send endpoint is a Go run-time panic (send on closed channel),
and a second call to `Close()` is never accepted: it can no longer
rendezvous with the dispatcher, and once the dispatcher finishes shutdown
(`close(ch.close)`, state `done`) the second `Close()` is itself a
run-time panic.  Neither misuse is silently tolerated or surfaced as a
recoverable error. -/
theorem chan_fatal_misuse {s : UnboundedCanvasObjectChan} (h : Reach s)
    (hc : s.pc = PC.drain ∨ s.pc = PC.flush ∨ s.pc = PC.done) :
    s.sendStatus = ChanOp.fatal ∧
    s.closeStatus ≠ ChanOp.ready ∧
    (s.pc = PC.done → s.closeStatus = ChanOp.fatal) := by
  have hinv := reach_inv h
  have hicT : s.inClosed = true := hinv.inClosed_iff.mpr hc
  refine ⟨sendStatus_fatal hicT, ?_, ?_⟩
  · intro hready
    obtain ⟨-, hw⟩ := (closeStatus_ready_iff s).mp hready
    rcases hc with h1 | h1 | h1 <;> rcases hw with h2 | ⟨h2, -⟩ <;>
      rw [h1] at h2 <;> cases h2
  · intro hpd
    exact closeStatus_fatal (hinv.closeClosed_iff.mpr hpd)

theorem chan_fatal_misuse_witness :
    chanTrace6.sendStatus = ChanOp.fatal ∧
    chanTrace6.closeStatus ≠ ChanOp.ready ∧
    (chanTrace6.pc = PC.done → chanTrace6.closeStatus = ChanOp.fatal) :=
  chan_fatal_misuse chanTrace6_reach (Or.inr (Or.inr rfl))

/-- C6: in every reachable queue state, the queue contains no elements
(its abstract content is the empty list) if and only if the head pointer
and the tail pointer refer to the same node and that node's forward
pointer is null; reachability closure means every operation preserves the
invariant. -/
theorem queue_empty_iff_sentinel {q : CanvasObjectQueue} (h : ReachQ q) :
    ∃ l, ReprQ q l ∧
      (l = [] ↔ q.head = q.tail ∧
        (q.nodeAt q.head).bind itemCanvasObject.next = none) := by
  obtain ⟨l, hl⟩ := reachQ_repr h
  refine ⟨l, hl, ?_, ?_⟩
  · rintro rfl
    obtain ⟨addrs, hc, -, -⟩ := hl
    obtain ⟨heq, -, it, hit, hnext⟩ := hc.nil_inv
    refine ⟨heq, ?_⟩
    simp [nodeAt, hit, hnext]
  · rintro ⟨heq, hnil⟩
    cases l with
    | nil => rfl
    | cons v l' =>
      obtain ⟨addrs0, hc, -, -⟩ := hl
      obtain ⟨b, addrs, it, itb, -, ha, hn, -, -, -⟩ := hc.cons_inv
      simp only [nodeAt] at hnil
      rw [ha] at hnil
      simp only [Option.some_bind] at hnil
      rw [hn] at hnil
      cases hnil

theorem queue_empty_iff_sentinel_witness :
    ∃ l, ReprQ NewCanvasObjectQueue l ∧
      (l = [] ↔ NewCanvasObjectQueue.head = NewCanvasObjectQueue.tail ∧
        (NewCanvasObjectQueue.nodeAt NewCanvasObjectQueue.head).bind
          itemCanvasObject.next = none) :=
  queue_empty_iff_sentinel ReachQ.init

/-- C7: the length counter is incremented (as a `uint64`, i.e. modulo
`2^64`) exactly once per successful enqueue and decremented exactly once
per successful non-empty dequeue, and a dequeue that returns empty leaves
the whole state — including the counter — unchanged; consequently in any
quiescent reachable state `Len()` equals the exact number of elements in
the queue (exactly, whenever that number fits in a `uint64`). -/
theorem queue_len_exact {q : CanvasObjectQueue} (h : ReachQ q) :
    ∃ l, ReprQ q l ∧
      q.Len = l.length % U64 ∧
      (l.length < U64 → q.Len = l.length) ∧
      (∀ v q', q.In v = some q' → q'.Len = (q.Len + 1) % U64) ∧
      (∀ v l', l = v :: l' →
        ∃ q', q.Out = some (v, q') ∧ q'.Len = (q.Len + (U64 - 1)) % U64) ∧
      (l = [] → q.Out = some (none, q)) := by
  obtain ⟨l, hl⟩ := reachQ_repr h
  have hlen : q.len = l.length % U64 := by
    obtain ⟨-, -, -, hlen⟩ := hl
    exact hlen
  refine ⟨l, hl, hlen, ?_, ?_, ?_, ?_⟩
  · intro hlt
    rw [Len, hlen]
    exact Nat.mod_eq_of_lt hlt
  · intro v q' hin
    obtain ⟨q'', hin', -, hlen', -⟩ := In_spec hl v
    obtain rfl : q' = q'' := Option.some.inj (hin.symm.trans hin')
    exact hlen'
  · rintro v l' rfl
    obtain ⟨q', hout, -, hlen', -, -, -⟩ := Out_cons hl
    exact ⟨q', hout, hlen'⟩
  · rintro rfl
    exact Out_empty hl

theorem queue_len_exact_witness :
    ∃ l, ReprQ NewCanvasObjectQueue l ∧
      NewCanvasObjectQueue.Len = l.length % U64 ∧
      (l.length < U64 → NewCanvasObjectQueue.Len = l.length) ∧
      (∀ v q', NewCanvasObjectQueue.In v = some q' →
        q'.Len = (NewCanvasObjectQueue.Len + 1) % U64) ∧
      (∀ v l', l = v :: l' → ∃ q', NewCanvasObjectQueue.Out = some (v, q') ∧
        q'.Len = (NewCanvasObjectQueue.Len + (U64 - 1)) % U64) ∧
      (l = [] → NewCanvasObjectQueue.Out = some (none, NewCanvasObjectQueue)) :=
  queue_len_exact ReachQ.init

/-- C8: calling dequeue on an empty queue is not an error and does not
change the queue's state: `Out()` returns the empty result `nil` and
leaves the entire state — head, tail, heap and the length counter —
unchanged. -/
theorem queue_dequeue_empty_noop {q : CanvasObjectQueue} (h : ReprQ q []) :
    q.Out = some (none, q) ∧ q.Len = 0 := by
  refine ⟨Out_empty h, ?_⟩
  obtain ⟨-, -, -, hlen⟩ := h
  simpa [Len] using hlen

theorem queue_dequeue_empty_noop_witness :
    NewCanvasObjectQueue.Out = some (none, NewCanvasObjectQueue) ∧
    NewCanvasObjectQueue.Len = 0 :=
  queue_dequeue_empty_noop reprQ_new

/-- C9: because the element type admits a `nil` value, `Out()` uses `nil`
both as the empty-queue result and as an ordinary returned value: after
`In(nil)` on a fresh queue, `Out()` returns `nil` — the same result as a
dequeue from the empty queue — while the node is nevertheless consumed
(the head pointer advances) and the length counter is decremented from 1
back to 0. -/
theorem queue_nil_payload_indistinguishable :
    NewCanvasObjectQueue.In none = some q9a ∧
    q9a.Out = some (none, q9b) ∧
    NewCanvasObjectQueue.Out = some (none, NewCanvasObjectQueue) ∧
    q9b.head ≠ q9a.head ∧
    q9a.Len = 1 ∧ q9b.Len = 0 :=
  ⟨rfl, rfl, rfl, by decide, rfl, rfl⟩

/-- C10: the dispatcher pre-allocates its internal buffer with capacity
1024 (`make([]T, 0, 1<<10)`), and the only dispatcher step possible at
the point where the buffer has fully drained (inner loop exit, `ch.q`
empty) is the reallocation check, which discards the buffer and installs
a fresh 1024-capacity block exactly when the residual capacity has fallen
below 32, and otherwise keeps the buffer; consequently the buffer's
capacity is at least 32 whenever the dispatcher is parked at the outer
select. -/
theorem chan_buffer_realloc_policy :
    NewUnboundedCanvasObjectChan.qcap = 1024 ∧
    (∀ s s' : UnboundedCanvasObjectChan,
      Step s Lab.disp s' → s.pc = PC.inner → s.q = [] → s' = reallocStep s) ∧
    (∀ s : UnboundedCanvasObjectChan, s.qcap < 32 →
      (reallocStep s).qcap = 1024 ∧ (reallocStep s).q = s.q) ∧
    (∀ s : UnboundedCanvasObjectChan, 32 ≤ s.qcap →
      (reallocStep s).qcap = s.qcap ∧ (reallocStep s).q = s.q) ∧
    (∀ s : UnboundedCanvasObjectChan, Reach s → s.pc = PC.outer → 32 ≤ s.qcap) := by
  refine ⟨rfl, ?_, ?_, ?_, ?_⟩
  · intro s s' hst hpc hq
    cases hst with
    | takeInOuter e rest ncap h1 h2 h3 => rw [hpc] at h1; cases h1
    | putOut v qrest h1 h2 h3 => rw [hq] at h2; cases h2
    | takeInInner e rest ncap h1 h2 h3 h4 => exact absurd hq h2
    | reallocCheck h1 h2 => rfl
    | drainTake e rest ncap h1 h2 h3 => rw [hpc] at h1; cases h1
    | drainDone h1 h2 => rw [hpc] at h1; cases h1
    | flushPut v qrest h1 h2 h3 => rw [hpc] at h1; cases h1
    | flushDone h1 h2 => rw [hpc] at h1; cases h1
  · intro s h
    constructor
    · simp [reallocStep, if_pos h]
    · rfl
  · intro s h
    constructor
    · simp [reallocStep, if_neg (Nat.not_lt.mpr h)]
    · rfl
  · intro s hr
    induction hr with
    | init => intro _; decide
    | step s1 s2 lab h1 hst ih =>
      intro hpc
      cases hst with
      | send v hready => exact ih hpc
      | recv v rest hob => exact ih hpc
      | recvEOS h2 h3 => exact ih hpc
      | closeCall hready => cases hpc
      | takeInOuter e rest ncap h2 h3 h4 => cases hpc
      | putOut v qrest h2 h3 h4 =>
        have hpc' : s1.pc = PC.outer := hpc
        rw [h2] at hpc'; cases hpc'
      | takeInInner e rest ncap h2 h3 h4 h5 =>
        have hpc' : s1.pc = PC.outer := hpc
        rw [h2] at hpc'; cases hpc'
      | reallocCheck h2 h3 =>
        show 32 ≤ (reallocStep s1).qcap
        simp only [reallocStep]
        split
        · omega
        · omega
      | drainTake e rest ncap h2 h3 h4 =>
        have hpc' : s1.pc = PC.outer := hpc
        rw [h2] at hpc'; cases hpc'
      | drainDone h2 h3 => cases hpc
      | flushPut v qrest h2 h3 h4 =>
        have hpc' : s1.pc = PC.outer := hpc
        rw [h2] at hpc'; cases hpc'
      | flushDone h2 h3 => cases hpc

theorem chan_buffer_realloc_policy_witness :
    reallocStep chanSmallCap = reallocStep chanSmallCap ∧
    ((reallocStep chanSmallCap).qcap = 1024 ∧
      (reallocStep chanSmallCap).q = chanSmallCap.q) ∧
    ((reallocStep NewUnboundedCanvasObjectChan).qcap =
        NewUnboundedCanvasObjectChan.qcap ∧
      (reallocStep NewUnboundedCanvasObjectChan).q =
        NewUnboundedCanvasObjectChan.q) ∧
    32 ≤ NewUnboundedCanvasObjectChan.qcap :=
  ⟨chan_buffer_realloc_policy.2.1 chanSmallCap (reallocStep chanSmallCap)
      (Step.reallocCheck chanSmallCap rfl rfl) rfl rfl,
   chan_buffer_realloc_policy.2.2.1 chanSmallCap (by decide),
   chan_buffer_realloc_policy.2.2.2.1 NewUnboundedCanvasObjectChan (by decide),
   chan_buffer_realloc_policy.2.2.2.2 NewUnboundedCanvasObjectChan Reach.init rfl⟩

end Async

